import Mathlib

/-!
Shallow embedding of the chunked-dc unchunking engine (src/unchunker.ts).

Bytes are modelled as natural numbers, buffers as lists of naturals, JS Maps
as association lists that preserve insertion order, and wall-clock timestamps
as naturals passed in explicitly.  The user-registered onMessage callback is
modelled by returning delivery events from add: one delivery event corresponds
to one invocation of a registered listener.  Thrown JS errors are modelled by
Except values; because a thrown error does not roll back earlier mutations,
the state-mutating operations return the post-error state alongside the error.
-/

set_option linter.unusedVariables false

/-- Modelled from the spec: src/common.ts (the Common module) is not part of
the source tree; the spec fixes the chunk header at 9 bytes. -/
def Common.HEADER_LENGTH : Nat := 9

/-- Errors thrown while constructing a Chunk. -/
inductive ChunkError
  | chunkTooShort
  | unsupportedInputKind
  deriving Repr, DecidableEq

/-- DataView.getUint8: read the byte at index i of the backing buffer
(reads on a valid view are always in range; out of range is modelled as 0). -/
def byteAt (b : List Nat) (i : Nat) : Nat := b.getD i 0

/-- DataView.getUint32 with big-endian byte order (the JS default when the
littleEndian argument is omitted): assemble four consecutive bytes. -/
def getUint32 (b : List Nat) (o : Nat) : Nat :=
  (byteAt b o) <<< 24 + (byteAt b (o + 1)) <<< 16 + (byteAt b (o + 2)) <<< 8 + byteAt b (o + 3)

/-- A parsed chunk (class Chunk): end-of-message flag, message id, serial,
payload bytes, and the optional caller-supplied context. -/
structure Chunk (Ctx : Type) where
  isEndOfMessage : Bool
  id : Nat
  serial : Nat
  data : List Nat
  context : Option Ctx
  deriving Repr, DecidableEq

/-- Chunk.readHeader: the options byte (bit 0 is the end-of-message flag,
compared against 1 after masking), then the big-endian uint32 id at offset 1
and the big-endian uint32 serial at offset 5. -/
def readHeader (b : List Nat) : Bool × Nat × Nat :=
  (((byteAt b 0) &&& 1) == 1, getUint32 b 1, getUint32 b 5)

/-- The Chunk constructor specialised by Uint8ArrayChunk.getData: check the
supplied length against the header length, read the header from the start of
the backing ArrayBuffer, and copy the payload as buffer.slice(HEADER_LENGTH),
which runs to the end of the backing buffer. -/
def Uint8ArrayChunk.make {Ctx : Type} (buffer : List Nat) (length : Nat)
    (context : Option Ctx) : Except ChunkError (Chunk Ctx) :=
  if length < Common.HEADER_LENGTH then .error .chunkTooShort
  else
    let h := readHeader buffer
    .ok { isEndOfMessage := h.1, id := h.2.1, serial := h.2.2,
          data := buffer.drop Common.HEADER_LENGTH, context := context }

/-- A JS Uint8Array view: a window of byteLength bytes starting at byteOffset
into a backing ArrayBuffer.  A well-formed view fits inside its buffer. -/
structure Uint8ArrayView where
  buffer : List Nat
  byteOffset : Nat
  byteLength : Nat
  deriving Repr, DecidableEq

/-- The bytes the view actually exposes. -/
def Uint8ArrayView.window (v : Uint8ArrayView) : List Nat :=
  (v.buffer.drop v.byteOffset).take v.byteLength

/-- The in-memory raw input kinds accepted by createChunk.  The Blob input
kind is not modelled here: reading its header requires the host FileReader,
and all reassembly logic below is independent of it. -/
inductive RawInput
  | uint8Array (v : Uint8ArrayView)
  | arrayBuffer (buffer : List Nat)
  deriving Repr, DecidableEq

/-- createChunk for the in-memory input kinds: a Uint8Array contributes its
backing ArrayBuffer (buf.buffer) together with its own byteLength, an
ArrayBuffer contributes itself and its byteLength. -/
def createChunk {Ctx : Type} (raw : RawInput) (context : Option Ctx) :
    Except ChunkError (Chunk Ctx) :=
  match raw with
  | .uint8Array v => Uint8ArrayChunk.make v.buffer v.byteLength context
  | .arrayBuffer b => Uint8ArrayChunk.make b b.length context

/-- A view whose byteOffset is nonzero, backing a 12-byte buffer. -/
def demoView : Uint8ArrayView := ⟨[255, 0, 0, 0, 1, 0, 0, 0, 2, 9, 8, 7], 1, 11⟩

/-- The chunk the engine actually produces from demoView: every field comes
from the backing buffer read from offset 0. -/
def demoViewChunk : Chunk Nat := ⟨true, 1, 2, [9, 8, 7], none⟩

/-- Errors thrown while merging chunks.  notComplete models the defensive
precondition failure of merge, chunkTooLarge the oversized-chunk failure of
mergeChunks, typeError the member access on undefined when the chunk list is
empty, rangeError an out-of-range typed-array set. -/
inductive MergeError
  | notComplete
  | chunkTooLarge
  | typeError
  | rangeError
  deriving Repr, DecidableEq

/-- Per-message chunk accumulator (class ChunkCollector).  In JS, endArrived
starts undefined (falsy) and messageLength starts null; lastUpdate is set to
the construction time. -/
structure ChunkCollector (Ctx : Type) where
  endArrived : Bool := false
  lastUpdate : Nat
  messageLength : Option Nat := none
  chunks : List (Chunk Ctx) := []
  deriving Repr, DecidableEq

/-- ChunkCollector.hasSerial: whether a stored chunk has the given serial
(chunks.find compared against undefined). -/
def ChunkCollector.hasSerial {Ctx : Type} (c : ChunkCollector Ctx) (serial : Nat) : Bool :=
  (c.chunks.find? (fun chunk => chunk.serial == serial)).isSome

/-- ChunkCollector.addChunk at time now: ignore a repeated serial; otherwise
push the chunk, refresh lastUpdate, and on an end-of-message chunk set
endArrived and messageLength to serial + 1. -/
def ChunkCollector.addChunk {Ctx : Type} (now : Nat) (c : ChunkCollector Ctx)
    (chunk : Chunk Ctx) : ChunkCollector Ctx :=
  if c.hasSerial chunk.serial then c
  else
    let c1 : ChunkCollector Ctx :=
      { c with chunks := c.chunks ++ [chunk], lastUpdate := now }
    if chunk.isEndOfMessage then
      { c1 with endArrived := true, messageLength := some (chunk.serial + 1) }
    else c1

/-- ChunkCollector.isComplete: the end chunk arrived and the number of stored
chunks equals messageLength. -/
def ChunkCollector.isComplete {Ctx : Type} (c : ChunkCollector Ctx) : Bool :=
  c.endArrived && (some c.chunks.length == c.messageLength)

/-- ChunkCollector.isOlderThan at time now. -/
def ChunkCollector.isOlderThan {Ctx : Type} (c : ChunkCollector Ctx)
    (now maxAge : Nat) : Bool :=
  decide (now - c.lastUpdate > maxAge)

/-- ChunkCollector.chunkCount. -/
def ChunkCollector.chunkCount {Ctx : Type} (c : ChunkCollector Ctx) : Nat :=
  c.chunks.length

/-- One insertion step of sorting by serial.  The source sorts with
Array.prototype.sort and a comparator on serials; serials inside one
collector are unique, so any comparator-correct sort produces the same
list, here realised as insertion sort. -/
def insertChunk {Ctx : Type} (k : Chunk Ctx) : List (Chunk Ctx) → List (Chunk Ctx)
  | [] => [k]
  | a :: l => if k.serial ≤ a.serial then k :: a :: l else a :: insertChunk k l

/-- Sort a chunk list ascending by serial. -/
def sortBySerial {Ctx : Type} (l : List (Chunk Ctx)) : List (Chunk Ctx) :=
  l.foldr insertChunk []

/-- TypedArray.prototype.set target source offset: write source into target
at offset; a source that does not fit raises a RangeError, modelled as
none. -/
def typedArraySet (target source : List Nat) (offset : Nat) : Option (List Nat) :=
  if target.length < offset + source.length then none
  else some (target.take offset ++ source ++ target.drop (offset + source.length))

/-- The chunk loop of Uint8ArrayChunkCollector.mergeChunks: for each chunk in
order, fail with chunkTooLarge if its payload exceeds firstSize, write the
payload into the buffer at the running offset, advance the offset by the
payload length, and append the context of the chunk, if any, to the context
list.  Returns the final buffer, offset and context list. -/
def mergeLoop {Ctx : Type} (firstSize : Nat) :
    List (Chunk Ctx) → List Nat → Nat → List Ctx →
      Except MergeError (List Nat × Nat × List Ctx)
  | [], buf, offset, contextList => .ok (buf, offset, contextList)
  | chunk :: rest, buf, offset, contextList =>
    if chunk.data.length > firstSize then .error .chunkTooLarge
    else
      match typedArraySet buf chunk.data offset with
      | none => .error .rangeError
      | some buf1 =>
        mergeLoop firstSize rest buf1 (offset + chunk.data.length)
          (contextList ++ (match chunk.context with
            | some x => [x]
            | none => []))

/-- Uint8ArrayChunkCollector.mergeChunks: allocate a zero buffer of
capacity chunks[0].data.byteLength * messageLength (JS multiplication by a
null messageLength yields 0), run the chunk loop from offset 0, and return
buf.slice(0, offset) with the context list.  An empty chunk list makes the
member access chunks[0].data throw, modelled as typeError. -/
def ChunkCollector.mergeChunks {Ctx : Type} (c : ChunkCollector Ctx) :
    Except MergeError (List Nat × List Ctx) :=
  match c.chunks with
  | [] => .error .typeError
  | first :: _ =>
    let capacity := first.data.length * c.messageLength.getD 0
    let buf := List.replicate capacity 0
    match mergeLoop first.data.length c.chunks buf 0 [] with
    | .error e => .error e
    | .ok (buf1, offset, contextList) => .ok (buf1.take offset, contextList)

/-- ChunkCollector.merge: check the isComplete precondition, sort the stored
chunks in place ascending by serial, then merge.  The sort mutates the
collector even when the subsequent merge throws, so the post-call collector
is returned alongside the result. -/
def ChunkCollector.merge {Ctx : Type} (c : ChunkCollector Ctx) :
    ChunkCollector Ctx × Except MergeError (List Nat × List Ctx) :=
  if !c.isComplete then (c, .error .notComplete)
  else
    let c1 : ChunkCollector Ctx := { c with chunks := sortBySerial c.chunks }
    (c1, c1.mergeChunks)

/-- A delivery event: one invocation of a registered onMessage listener with
the message bytes and the context list. -/
abbrev Delivery (Ctx : Type) : Type := List Nat × List Ctx

/-- The JS Map holding one ChunkCollector per message id, as an association
list in insertion order with unique keys. -/
structure UnchunkerState (Ctx : Type) where
  registry : List (Nat × ChunkCollector Ctx) := []
  deriving Repr, DecidableEq

/-- Map.prototype.get (undefined when the key is absent). -/
def mapGet {Ctx : Type} (m : List (Nat × ChunkCollector Ctx)) (k : Nat) :
    Option (ChunkCollector Ctx) :=
  (m.find? (fun e => e.1 == k)).map (fun e => e.2)

/-- Map.prototype.set: update the value in place for an existing key, append
a new entry otherwise. -/
def mapSet {Ctx : Type} (m : List (Nat × ChunkCollector Ctx)) (k : Nat)
    (v : ChunkCollector Ctx) : List (Nat × ChunkCollector Ctx) :=
  if (m.find? (fun e => e.1 == k)).isSome then
    m.map (fun e => if e.1 == k then (k, v) else e)
  else m ++ [(k, v)]

/-- Map.prototype.delete: drop the entry with the given key. -/
def mapDelete {Ctx : Type} (m : List (Nat × ChunkCollector Ctx)) (k : Nat) :
    List (Nat × ChunkCollector Ctx) :=
  m.filter (fun e => !(e.1 == k))

/-- Unchunker.add after chunk parsing (lines 339-369 of unchunker.ts), at
time now: drop a duplicate (id, serial); fast-path a single-chunk message
(notify with the chunk data and the context list built from the context
argument, then delete any registry entry for the id); otherwise get or create
the collector, add the chunk, and when the collector is complete, merge,
notify, and delete the entry.  A merge error propagates to the caller, with
every registry mutation made so far kept.  The Except carries the delivery
event of this call, if any. -/
def Unchunker.addParsedChunk {Ctx : Type} (now : Nat) (s : UnchunkerState Ctx)
    (chunk : Chunk Ctx) (context : Option Ctx) :
    UnchunkerState Ctx × Except MergeError (Option (Delivery Ctx)) :=
  if (match mapGet s.registry chunk.id with
      | some c => c.hasSerial chunk.serial
      | none => false) then
    (s, .ok none)
  else if chunk.isEndOfMessage && chunk.serial == 0 then
    ({ registry := mapDelete s.registry chunk.id },
      .ok (some (chunk.data, match context with
        | none => []
        | some x => [x])))
  else
    let collector := (mapGet s.registry chunk.id).getD { lastUpdate := now }
    let collector1 := collector.addChunk now chunk
    let registry1 := mapSet s.registry chunk.id collector1
    if collector1.isComplete then
      match collector1.merge with
      | (c2, .error e) => ({ registry := mapSet registry1 chunk.id c2 }, .error e)
      | (c2, .ok merged) =>
        ({ registry := mapDelete registry1 chunk.id }, .ok (some merged))
    else
      ({ registry := registry1 }, .ok none)

/-- Errors surfaced by Unchunker.add: a chunk parse error or a merge error. -/
inductive AddError
  | parse (e : ChunkError)
  | merge (e : MergeError)
  deriving Repr, DecidableEq

/-- Unchunker.add from raw input: parse with createChunk, then process the
parsed chunk. -/
def Unchunker.add {Ctx : Type} (now : Nat) (s : UnchunkerState Ctx)
    (raw : RawInput) (context : Option Ctx) :
    UnchunkerState Ctx × Except AddError (Option (Delivery Ctx)) :=
  match createChunk raw context with
  | .error e => (s, .error (.parse e))
  | .ok chunk =>
    let r := Unchunker.addParsedChunk now s chunk context
    (r.1, r.2.mapError .merge)

/-- Process a sequence of parsed chunks through Unchunker.addParsedChunk,
accumulating the delivery events; a thrown error stops the sequence. -/
def Unchunker.run {Ctx : Type} (now : Nat) (s : UnchunkerState Ctx) :
    List (Chunk Ctx × Option Ctx) →
      UnchunkerState Ctx × Except MergeError (List (Delivery Ctx))
  | [] => (s, .ok [])
  | (chunk, context) :: rest =>
    match Unchunker.addParsedChunk now s chunk context with
    | (s1, .error e) => (s1, .error e)
    | (s1, .ok d) =>
      match Unchunker.run now s1 rest with
      | (s2, .error e) => (s2, .error e)
      | (s2, .ok ds) => (s2, .ok (d.toList ++ ds))

/-- The sweep loop of Unchunker.gc over the registry entries: remove every
entry whose collector isOlderThan maxAge, totalling the removed chunk
counts. -/
def gcLoop {Ctx : Type} (now maxAge : Nat) :
    List (Nat × ChunkCollector Ctx) → Nat × List (Nat × ChunkCollector Ctx)
  | [] => (0, [])
  | e :: rest =>
    let r := gcLoop now maxAge rest
    if e.2.isOlderThan now maxAge then (e.2.chunkCount + r.1, r.2)
    else (r.1, e :: r.2)

/-- Unchunker.gc: sweep the registry, returning the number of removed chunks
and the swept state. -/
def Unchunker.gc {Ctx : Type} (now maxAge : Nat) (s : UnchunkerState Ctx) :
    Nat × UnchunkerState Ctx :=
  let r := gcLoop now maxAge s.registry
  (r.1, { registry := r.2 })

/-- A collector that is complete by cardinality although serials 0 and 1
never arrived: end chunk with serial 2 (expected count 3) plus chunks with
serials 5 and 7. -/
def demoGapCollector : ChunkCollector Nat :=
  ((({ lastUpdate := 0 } : ChunkCollector Nat).addChunk 1 ⟨true, 9, 2, [0], none⟩).addChunk 2
      ⟨false, 9, 5, [0], none⟩).addChunk 3 ⟨false, 9, 7, [0], none⟩

/-- The concrete collector of the spec: id 7, payload sizes 4, 4, 2, end
flag on serial 2, chunks delivered in order 2, 0, 1. -/
def demoC2Collector : ChunkCollector Nat :=
  ((({ lastUpdate := 0 } : ChunkCollector Nat).addChunk 1
      ⟨true, 7, 2, [9, 10], some 30⟩).addChunk 2
      ⟨false, 7, 0, [1, 2, 3, 4], some 10⟩).addChunk 3
      ⟨false, 7, 1, [5, 6, 7, 8], none⟩

instance exceptDecidableEq {E A : Type} [DecidableEq E] [DecidableEq A] :
    DecidableEq (Except E A) := fun x y =>
  match x, y with
  | .error a, .error b =>
    if h : a = b then .isTrue (by rw [h]) else .isFalse (by intro hc; injection hc; contradiction)
  | .ok a, .ok b =>
    if h : a = b then .isTrue (by rw [h]) else .isFalse (by intro hc; injection hc; contradiction)
  | .error a, .ok b => .isFalse (by intro hc; exact Except.noConfusion hc)
  | .ok a, .error b => .isFalse (by intro hc; exact Except.noConfusion hc)

/-- The i-th chunk of an N-chunk message with id I, payloads p and contexts
ctx: serial i, end flag exactly on serial N - 1. -/
def mkChunk {Ctx : Type} (N I : Nat) (p : Nat → List Nat) (ctx : Nat → Option Ctx)
    (i : Nat) : Chunk Ctx :=
  ⟨decide (i = N - 1), I, i, p i, ctx i⟩

/-- The collector state reached after accepting the chunks with the serials
of l (distinct, in arrival order) at time now. -/
def collOf {Ctx : Type} (N I now : Nat) (p : Nat → List Nat) (ctx : Nat → Option Ctx)
    (l : List Nat) : ChunkCollector Ctx :=
  { endArrived := decide (N - 1 ∈ l),
    lastUpdate := now,
    messageLength := if N - 1 ∈ l then some N else none,
    chunks := l.map (mkChunk N I p ctx) }

lemma nat_beq_eq_decide (a b : Nat) : (a == b) = decide (a = b) := by
  by_cases h : a = b <;> simp [h]

lemma and_one_beq_testBit (n : Nat) : ((n &&& 1) == 1) = n.testBit 0 := by
  rw [Nat.and_one_is_mod, Nat.testBit_zero]
  by_cases h : n % 2 = 1 <;> simp [h]

/-- C8: for every raw chunk of at least 9 bytes, header decoding yields
end-of-message true iff bit 0 of byte 0 is set (the remaining bits of byte 0
are ignored), id equal to the big-endian uint32 at bytes 1..4, and serial
equal to the big-endian uint32 at bytes 5..8; input shorter than 9 bytes
fails with ChunkTooShort. -/
theorem c8_header_decoding (b : List Nat) (context : Option Nat) :
    (Common.HEADER_LENGTH ≤ b.length →
      createChunk (.arrayBuffer b) context = .ok
        { isEndOfMessage := (b.getD 0 0).testBit 0,
          id := (b.getD 1 0) * 2 ^ 24 + (b.getD 2 0) * 2 ^ 16 + (b.getD 3 0) * 2 ^ 8 + b.getD 4 0,
          serial := (b.getD 5 0) * 2 ^ 24 + (b.getD 6 0) * 2 ^ 16 + (b.getD 7 0) * 2 ^ 8 + b.getD 8 0,
          data := b.drop 9,
          context := context }) ∧
    (b.length < Common.HEADER_LENGTH →
      createChunk (.arrayBuffer b) context = .error .chunkTooShort) := by
  constructor
  · intro h
    have h9 : ¬ (b.length < 9) := Nat.not_lt.mpr h
    simp [createChunk, Uint8ArrayChunk.make, h9, readHeader, getUint32, byteAt,
      Nat.shiftLeft_eq, and_one_beq_testBit, nat_beq_eq_decide, Common.HEADER_LENGTH]
  · intro h
    simp [createChunk, Uint8ArrayChunk.make, h]

theorem c8_header_decoding_witness :
    createChunk (RawInput.arrayBuffer [3, 0, 0, 1, 44, 0, 0, 0, 5, 7, 8]) (some 2) =
      .ok ⟨true, 300, 5, [7, 8], some 2⟩ ∧
    createChunk (RawInput.arrayBuffer [1, 2, 3]) (none : Option Nat) = .error .chunkTooShort := by
  refine ⟨?_, ?_⟩
  · exact (c8_header_decoding [3, 0, 0, 1, 44, 0, 0, 0, 5, 7, 8] (some 2)).1 (by decide)
  · exact (c8_header_decoding [1, 2, 3] (none : Option Nat)).2 (by decide)

/-- C10: createChunk parses the header from, and copies the payload from, the
underlying ArrayBuffer of a Uint8Array view starting at offset 0 and running
to the end of the buffer, while checking the minimum-length precondition
against the byteLength of the view; for a view with nonzero byteOffset the
header fields and payload are taken from bytes outside the window of the
view. -/
theorem c10_createChunk_uses_backing_buffer :
    (∀ (v : Uint8ArrayView) (context : Option Nat), Common.HEADER_LENGTH ≤ v.byteLength →
      createChunk (.uint8Array v) context = .ok
        { isEndOfMessage := (v.buffer.getD 0 0).testBit 0,
          id := (v.buffer.getD 1 0) * 2 ^ 24 + (v.buffer.getD 2 0) * 2 ^ 16 +
            (v.buffer.getD 3 0) * 2 ^ 8 + v.buffer.getD 4 0,
          serial := (v.buffer.getD 5 0) * 2 ^ 24 + (v.buffer.getD 6 0) * 2 ^ 16 +
            (v.buffer.getD 7 0) * 2 ^ 8 + v.buffer.getD 8 0,
          data := v.buffer.drop 9,
          context := context }) ∧
    (∀ (v : Uint8ArrayView) (context : Option Nat), v.byteLength < Common.HEADER_LENGTH →
      createChunk (.uint8Array v) context = .error .chunkTooShort) ∧
    (demoView.byteOffset ≠ 0 ∧
      createChunk (.uint8Array demoView) (none : Option Nat) = .ok demoViewChunk ∧
      9 ≤ demoView.window.length ∧
      demoViewChunk.data ≠ demoView.window.drop 9 ∧
      demoViewChunk.serial ≠ getUint32 demoView.window 5) := by
  refine ⟨?_, ?_, ?_⟩
  · intro v context h
    have h9 : ¬ (v.byteLength < 9) := Nat.not_lt.mpr h
    simp [createChunk, Uint8ArrayChunk.make, h9, readHeader, getUint32, byteAt,
      Nat.shiftLeft_eq, and_one_beq_testBit, nat_beq_eq_decide, Common.HEADER_LENGTH]
  · intro v context h
    simp [createChunk, Uint8ArrayChunk.make, h]
  · exact ⟨by decide, by rfl, by decide, by decide, by decide⟩

theorem c10_createChunk_uses_backing_buffer_witness :
    createChunk (.uint8Array ⟨[255, 0, 0, 0, 1, 0, 0, 0, 2, 9, 8, 7], 1, 11⟩)
        (none : Option Nat) = .ok ⟨true, 1, 2, [9, 8, 7], none⟩ ∧
    createChunk (.uint8Array ⟨[1, 2, 3, 4, 5, 6, 7, 8, 9, 10], 2, 8⟩)
        (none : Option Nat) = .error .chunkTooShort := by
  refine ⟨?_, ?_⟩
  · exact c10_createChunk_uses_backing_buffer.1 ⟨[255, 0, 0, 0, 1, 0, 0, 0, 2, 9, 8, 7], 1, 11⟩
      (none : Option Nat) (by decide)
  · exact c10_createChunk_uses_backing_buffer.2.1 ⟨[1, 2, 3, 4, 5, 6, 7, 8, 9, 10], 2, 8⟩
      (none : Option Nat) (by decide)

/-- C4: isComplete holds iff an end chunk has been accepted and the number of
stored chunks equals the expected count, set to serial + 1 when the end chunk
is accepted; completeness is a cardinality check, witnessed by a collector
that is complete while serials 0 and 1 are absent. -/
theorem c4_isComplete_cardinality {Ctx : Type} (c : ChunkCollector Ctx)
    (chunk : Chunk Ctx) (now : Nat)
    (h1 : c.hasSerial chunk.serial = false) (h2 : chunk.isEndOfMessage = true) :
    (c.isComplete = (c.endArrived && (some c.chunks.length == c.messageLength))) ∧
    ((c.addChunk now chunk).endArrived = true ∧
      (c.addChunk now chunk).messageLength = some (chunk.serial + 1)) ∧
    (demoGapCollector.isComplete = true ∧
      demoGapCollector.hasSerial 0 = false ∧ demoGapCollector.hasSerial 1 = false) := by
  refine ⟨rfl, ⟨?_, ?_⟩, by decide, by decide, by decide⟩ <;>
    simp [ChunkCollector.addChunk, h1, h2]

theorem c4_isComplete_cardinality_witness :
    (({ lastUpdate := 4, chunks := [⟨false, 3, 0, [9], none⟩] } : ChunkCollector Nat).isComplete
      = ((({ lastUpdate := 4, chunks := [⟨false, 3, 0, [9], none⟩] } : ChunkCollector Nat)).endArrived
        && (some 1 == ({ lastUpdate := 4, chunks := [⟨false, 3, 0, [9], none⟩] }
          : ChunkCollector Nat).messageLength))) ∧
    ((({ lastUpdate := 4, chunks := [⟨false, 3, 0, [9], none⟩] } : ChunkCollector Nat).addChunk 8
        ⟨true, 3, 1, [7], none⟩).endArrived = true ∧
      (({ lastUpdate := 4, chunks := [⟨false, 3, 0, [9], none⟩] } : ChunkCollector Nat).addChunk 8
        ⟨true, 3, 1, [7], none⟩).messageLength = some 2) ∧
    (demoGapCollector.isComplete = true ∧
      demoGapCollector.hasSerial 0 = false ∧ demoGapCollector.hasSerial 1 = false) :=
  c4_isComplete_cardinality
    { lastUpdate := 4, chunks := [⟨false, 3, 0, [9], none⟩] }
    ⟨true, 3, 1, [7], none⟩ 8 (by decide) (by decide)

/-- C7: adding a chunk whose serial is already stored leaves the collector
componentwise unchanged, hence also the merged output. -/
theorem c7_duplicate_addChunk_noop {Ctx : Type} (c : ChunkCollector Ctx)
    (chunk : Chunk Ctx) (now : Nat) (h : c.hasSerial chunk.serial = true) :
    c.addChunk now chunk = c ∧ (c.addChunk now chunk).merge = c.merge := by
  have he : c.addChunk now chunk = c := by simp [ChunkCollector.addChunk, h]
  exact ⟨he, by rw [he]⟩

theorem c7_duplicate_addChunk_noop_witness :
    ({ lastUpdate := 5, chunks := [⟨false, 3, 1, [9], none⟩] } : ChunkCollector Nat).addChunk 99
        ⟨true, 3, 1, [8], some 2⟩ =
      { lastUpdate := 5, chunks := [⟨false, 3, 1, [9], none⟩] } ∧
    (({ lastUpdate := 5, chunks := [⟨false, 3, 1, [9], none⟩] } : ChunkCollector Nat).addChunk 99
        ⟨true, 3, 1, [8], some 2⟩).merge =
      ({ lastUpdate := 5, chunks := [⟨false, 3, 1, [9], none⟩] } : ChunkCollector Nat).merge :=
  c7_duplicate_addChunk_noop
    { lastUpdate := 5, chunks := [⟨false, 3, 1, [9], none⟩] }
    ⟨true, 3, 1, [8], some 2⟩ 99 (by decide)

/-- C5: a non-duplicate chunk with serial 0 and the end flag set is delivered
immediately with a context list of [context] or [], the registry entry for
its id is discarded, and the registry does not grow. -/
theorem c5_fast_path {Ctx : Type} (now : Nat) (s : UnchunkerState Ctx)
    (chunk : Chunk Ctx) (context : Option Ctx)
    (h0 : chunk.serial = 0) (h1 : chunk.isEndOfMessage = true)
    (h2 : (match mapGet s.registry chunk.id with
      | some c => c.hasSerial chunk.serial
      | none => false) = false) :
    Unchunker.addParsedChunk now s chunk context =
      ({ registry := mapDelete s.registry chunk.id },
        .ok (some (chunk.data, context.toList))) ∧
    (mapDelete s.registry chunk.id).length ≤ s.registry.length := by
  constructor
  · rw [h0] at h2
    cases context <;> simp [Unchunker.addParsedChunk, h0, h1, h2, Option.toList]
  · exact List.length_filter_le _ _

theorem c5_fast_path_witness :
    Unchunker.addParsedChunk 0
        ({ registry := [(4, { lastUpdate := 0, chunks := [⟨false, 4, 1, [3], none⟩] })] }
          : UnchunkerState Nat)
        ⟨true, 4, 0, [1, 2], none⟩ (some 6) =
      ({ registry := [] }, .ok (some ([1, 2], [6]))) ∧
    ([] : List (Nat × ChunkCollector Nat)).length ≤
      [(4, ({ lastUpdate := 0, chunks := [⟨false, 4, 1, [3], none⟩] } : ChunkCollector Nat))].length := by
  have h := c5_fast_path 0
    { registry := [(4, { lastUpdate := 0, chunks := [⟨false, 4, 1, [3], none⟩] })] }
    ⟨true, 4, 0, [1, 2], none⟩ (some 6) (by decide) (by decide) (by decide)
  exact ⟨h.1, by decide⟩

/-- C9: when the registry already holds a collector for the id of the chunk
that stores serial 0, an incoming single-chunk final message with that id is
dropped by the duplicate check before the fast path: no delivery, no state
change. -/
theorem c9_duplicate_check_precedes_fast_path {Ctx : Type} (now : Nat)
    (s : UnchunkerState Ctx) (chunk : Chunk Ctx) (context : Option Ctx)
    (c : ChunkCollector Ctx)
    (hget : mapGet s.registry chunk.id = some c) (hhas : c.hasSerial 0 = true)
    (h0 : chunk.serial = 0) (h1 : chunk.isEndOfMessage = true) :
    Unchunker.addParsedChunk now s chunk context = (s, .ok none) := by
  simp [Unchunker.addParsedChunk, hget, h0, hhas]

theorem c9_duplicate_check_precedes_fast_path_witness :
    Unchunker.addParsedChunk 9
        ({ registry := [(4, { lastUpdate := 0, chunks := [⟨false, 4, 0, [3], none⟩] })] }
          : UnchunkerState Nat)
        ⟨true, 4, 0, [1, 2], none⟩ (some 6) =
      ({ registry := [(4, { lastUpdate := 0, chunks := [⟨false, 4, 0, [3], none⟩] })] },
        .ok none) :=
  c9_duplicate_check_precedes_fast_path 9
    { registry := [(4, { lastUpdate := 0, chunks := [⟨false, 4, 0, [3], none⟩] })] }
    ⟨true, 4, 0, [1, 2], none⟩ (some 6)
    { lastUpdate := 0, chunks := [⟨false, 4, 0, [3], none⟩] }
    (by decide) (by decide) (by decide) (by decide)

lemma gcLoop_spec {Ctx : Type} (now maxAge : Nat)
    (m : List (Nat × ChunkCollector Ctx)) :
    gcLoop now maxAge m =
      (((m.filter (fun e => e.2.isOlderThan now maxAge)).map
          (fun e => e.2.chunkCount)).sum,
        m.filter (fun e => !(e.2.isOlderThan now maxAge))) := by
  induction m with
  | nil => rfl
  | cons e rest ih =>
    by_cases h : e.2.isOlderThan now maxAge = true <;>
      simp [gcLoop, ih, List.filter_cons, h]

/-- C6: gc removes exactly the registry entries whose collector is older than
maxAge (now - lastUpdate > maxAge, lastUpdate being refreshed on every
accepted chunk), keeps every other entry unchanged in order, and returns the
sum of the chunk counts of the removed entries. -/
theorem c6_gc_sweep {Ctx : Type} (now maxAge : Nat) (s : UnchunkerState Ctx)
    (c : ChunkCollector Ctx) (chunk : Chunk Ctx)
    (h : c.hasSerial chunk.serial = false) :
    (Unchunker.gc now maxAge s).2.registry =
      s.registry.filter (fun e => !(e.2.isOlderThan now maxAge)) ∧
    (Unchunker.gc now maxAge s).1 =
      ((s.registry.filter (fun e => e.2.isOlderThan now maxAge)).map
        (fun e => e.2.chunkCount)).sum ∧
    (∀ cc : ChunkCollector Ctx, cc.isOlderThan now maxAge =
      decide (now - cc.lastUpdate > maxAge)) ∧
    (c.addChunk now chunk).lastUpdate = now := by
  refine ⟨?_, ?_, fun cc => rfl, ?_⟩
  · simp [Unchunker.gc, gcLoop_spec]
  · simp [Unchunker.gc, gcLoop_spec]
  · by_cases he : chunk.isEndOfMessage = true <;> simp [ChunkCollector.addChunk, h, he]

theorem c6_gc_sweep_witness :
    (Unchunker.gc 100 30
        ({ registry := [(1, { lastUpdate := 10, chunks := [⟨false, 1, 0, [5], none⟩] }),
          (2, { lastUpdate := 90, chunks := [⟨false, 2, 0, [6], none⟩] })] }
          : UnchunkerState Nat)).2.registry =
      [(2, { lastUpdate := 90, chunks := [⟨false, 2, 0, [6], none⟩] })] ∧
    (Unchunker.gc 100 30
        ({ registry := [(1, { lastUpdate := 10, chunks := [⟨false, 1, 0, [5], none⟩] }),
          (2, { lastUpdate := 90, chunks := [⟨false, 2, 0, [6], none⟩] })] }
          : UnchunkerState Nat)).1 = 1 ∧
    (({ lastUpdate := 10 } : ChunkCollector Nat).addChunk 100
      ⟨false, 1, 0, [5], none⟩).lastUpdate = 100 := by
  have h := c6_gc_sweep 100 30
    ({ registry := [(1, { lastUpdate := 10, chunks := [⟨false, 1, 0, [5], none⟩] }),
      (2, { lastUpdate := 90, chunks := [⟨false, 2, 0, [6], none⟩] })] } : UnchunkerState Nat)
    { lastUpdate := 10 } ⟨false, 1, 0, [5], none⟩ (by decide)
  refine ⟨?_, ?_, h.2.2.2⟩
  · rw [h.1]; decide
  · rw [h.2.1]; decide

lemma mapGet_map_replace {Ctx : Type} (k : Nat) (v : ChunkCollector Ctx) :
    ∀ m : List (Nat × ChunkCollector Ctx),
      (m.find? (fun e => e.1 == k)).isSome = true →
      mapGet (m.map (fun e => if e.1 == k then (k, v) else e)) k = some v := by
  intro m
  induction m with
  | nil => intro h; simp at h
  | cons e rest ih =>
    intro h
    by_cases he : (e.1 == k) = true
    · simp [mapGet, List.find?, he]
    · have he2 : (e.1 == k) = false := by revert he; cases e.1 == k <;> simp
      have hrest : (rest.find? (fun e => e.1 == k)).isSome = true := by
        simpa [List.find?, he2] using h
      simpa [mapGet, List.find?, he2] using ih hrest

lemma mapGet_append_single {Ctx : Type} (k : Nat) (v : ChunkCollector Ctx) :
    ∀ m : List (Nat × ChunkCollector Ctx),
      m.find? (fun e => e.1 == k) = none →
      mapGet (m ++ [(k, v)]) k = some v := by
  intro m
  induction m with
  | nil => intro h; simp [mapGet, List.find?]
  | cons e rest ih =>
    intro h
    have he2 : (e.1 == k) = false := by
      revert h; simp only [List.find?]; cases e.1 == k <;> simp
    have hrest : rest.find? (fun e => e.1 == k) = none := by
      simpa [List.find?, he2] using h
    simpa [mapGet, List.find?, he2] using ih hrest

lemma mapGet_mapSet_self {Ctx : Type} (m : List (Nat × ChunkCollector Ctx))
    (k : Nat) (v : ChunkCollector Ctx) : mapGet (mapSet m k v) k = some v := by
  unfold mapSet
  by_cases hf : ((m.find? (fun e => e.1 == k)).isSome : Bool) = true
  · simp only [hf, if_true]
    exact mapGet_map_replace k v m hf
  · have hn : m.find? (fun e => e.1 == k) = none := by
      revert hf; cases m.find? (fun e => e.1 == k) <;> simp
    simp only [hf, if_false]
    exact mapGet_append_single k v m hn

lemma mapGet_mapSet_isSome {Ctx : Type} (m : List (Nat × ChunkCollector Ctx))
    (k : Nat) (v : ChunkCollector Ctx) :
    (mapGet (mapSet m k v) k).isSome = true := by
  rw [mapGet_mapSet_self]
  rfl

/-- C3 counterexample: message id 7, chunk serial 0 with a 1-byte payload,
then the end chunk serial 1 with a 2-byte payload.  The second add completes
the collector, merge fails with chunkTooLarge and the error reaches the
caller, but the registry entry for id 7 is NOT removed: the throw happens
before the delete. -/
theorem c3_counterexample :
    (Unchunker.run 0 ({ registry := [] } : UnchunkerState Nat)
      [(⟨false, 7, 0, [1], none⟩, none), (⟨true, 7, 1, [2, 3], none⟩, none)]).2 =
      .error .chunkTooLarge ∧
    mapGet (Unchunker.run 0 ({ registry := [] } : UnchunkerState Nat)
      [(⟨false, 7, 0, [1], none⟩, none), (⟨true, 7, 1, [2, 3], none⟩, none)]).1.registry 7 =
      some ⟨true, 0, some 2, [⟨false, 7, 0, [1], none⟩, ⟨true, 7, 1, [2, 3], none⟩]⟩ :=
  ⟨rfl, rfl⟩

/-- C3 (amended): when an add call fails with a merge error such as
ChunkTooLarge, the error is raised to the caller of add and no delivery
happens for that message id, but the registry entry for the id is NOT
removed: it remains in the registry, holding the sorted collector. -/
theorem c3_merge_error_keeps_entry {Ctx : Type} (now : Nat)
    (s : UnchunkerState Ctx) (chunk : Chunk Ctx) (context : Option Ctx)
    (e : MergeError)
    (h : (Unchunker.addParsedChunk now s chunk context).2 = .error e) :
    (mapGet (Unchunker.addParsedChunk now s chunk context).1.registry chunk.id).isSome
      = true := by
  by_cases h1 : (match mapGet s.registry chunk.id with
    | some c => c.hasSerial chunk.serial
    | none => false) = true
  · simp [Unchunker.addParsedChunk, h1] at h
  by_cases h2 : (chunk.isEndOfMessage && chunk.serial == 0) = true
  · simp [Unchunker.addParsedChunk, h1, h2] at h
  rcases hm : (ChunkCollector.addChunk now
    ((mapGet s.registry chunk.id).getD { lastUpdate := now }) chunk).merge with ⟨c2, r⟩
  by_cases h3 : (ChunkCollector.addChunk now
    ((mapGet s.registry chunk.id).getD { lastUpdate := now }) chunk).isComplete = true
  · cases r with
    | error e2 =>
      simp [Unchunker.addParsedChunk, h1, h2, h3, hm, mapGet_mapSet_isSome]
    | ok m =>
      simp [Unchunker.addParsedChunk, h1, h2, h3, hm] at h
  · simp [Unchunker.addParsedChunk, h1, h2, h3] at h

theorem c3_merge_error_keeps_entry_witness :
    (mapGet (Unchunker.addParsedChunk 0
      ({ registry := [(7, { lastUpdate := 0, chunks := [⟨false, 7, 0, [1], none⟩] })] }
        : UnchunkerState Nat)
      ⟨true, 7, 1, [2, 3], none⟩ none).1.registry 7).isSome = true :=
  c3_merge_error_keeps_entry 0
    { registry := [(7, { lastUpdate := 0, chunks := [⟨false, 7, 0, [1], none⟩] })] }
    ⟨true, 7, 1, [2, 3], none⟩ none .chunkTooLarge (by rfl)

lemma insertChunk_perm {Ctx : Type} (k : Chunk Ctx) (l : List (Chunk Ctx)) :
    (insertChunk k l).Perm (k :: l) := by
  induction l with
  | nil => exact List.Perm.refl _
  | cons a t ih =>
    by_cases h : k.serial ≤ a.serial
    · simp only [insertChunk, if_pos h]
      exact List.Perm.refl _
    · simp only [insertChunk, if_neg h]
      exact (ih.cons a).trans (List.Perm.swap k a t)

lemma sortBySerial_perm {Ctx : Type} (l : List (Chunk Ctx)) :
    (sortBySerial l).Perm l := by
  induction l with
  | nil => exact List.Perm.refl _
  | cons a t ih =>
    have h : sortBySerial (a :: t) = insertChunk a (sortBySerial t) := rfl
    rw [h]
    exact (insertChunk_perm a (sortBySerial t)).trans (ih.cons a)

lemma insertChunk_pairwise {Ctx : Type} (k : Chunk Ctx) (l : List (Chunk Ctx))
    (h : List.Pairwise (fun a b : Chunk Ctx => a.serial ≤ b.serial) l) :
    List.Pairwise (fun a b : Chunk Ctx => a.serial ≤ b.serial) (insertChunk k l) := by
  induction l with
  | nil => simp [insertChunk]
  | cons a t ih =>
    rw [List.pairwise_cons] at h
    obtain ⟨ha, ht⟩ := h
    by_cases hk : k.serial ≤ a.serial
    · simp only [insertChunk, if_pos hk]
      rw [List.pairwise_cons]
      refine ⟨?_, ?_⟩
      · intro b hb
        rcases List.mem_cons.mp hb with rfl | hb2
        · exact hk
        · exact hk.trans (ha b hb2)
      · rw [List.pairwise_cons]
        exact ⟨ha, ht⟩
    · simp only [insertChunk, if_neg hk]
      rw [List.pairwise_cons]
      refine ⟨?_, ih ht⟩
      intro b hb
      have hmem := (insertChunk_perm k t).mem_iff.mp hb
      rcases List.mem_cons.mp hmem with rfl | hb2
      · exact Nat.le_of_not_le hk
      · exact ha b hb2

lemma sortBySerial_pairwise {Ctx : Type} (l : List (Chunk Ctx)) :
    List.Pairwise (fun a b : Chunk Ctx => a.serial ≤ b.serial) (sortBySerial l) := by
  induction l with
  | nil => simp [sortBySerial]
  | cons a t ih => exact insertChunk_pairwise a (sortBySerial t) ih

lemma eq_of_perm_serialNodup {Ctx : Type} :
    ∀ (M L : List (Chunk Ctx)), M.Perm L →
      (L.map (fun k => k.serial)).Nodup →
      M.map (fun k => k.serial) = L.map (fun k => k.serial) →
      M = L := by
  intro M
  induction M with
  | nil =>
    intro L hp hnd hs
    have h := hp.symm.eq_nil
    rw [h]
  | cons m M2 ih =>
    intro L hp hnd hs
    cases L with
    | nil =>
      have h := hp.eq_nil
      simp at h
    | cons a L2 =>
      simp only [List.map_cons] at hs hnd
      injection hs with hs1 hs2
      rw [List.nodup_cons] at hnd
      have hm : m = a := by
        have hmem : m ∈ a :: L2 := hp.mem_iff.mp (List.mem_cons_self m M2)
        rcases List.mem_cons.mp hmem with rfl | hmem2
        · rfl
        · exfalso
          apply hnd.1
          rw [← hs1]
          exact List.mem_map_of_mem (fun k => k.serial) hmem2
      subst hm
      have hp2 : M2.Perm L2 := hp.cons_inv
      rw [ih L2 hp2 hnd.2 hs2]

lemma sortBySerial_eq_of_sorted {Ctx : Type} (C L : List (Chunk Ctx))
    (hp : C.Perm L)
    (hL : List.Pairwise (fun a b : Chunk Ctx => a.serial ≤ b.serial) L)
    (hnd : (L.map (fun k => k.serial)).Nodup) :
    sortBySerial C = L := by
  apply eq_of_perm_serialNodup _ _ ((sortBySerial_perm C).trans hp) hnd
  have hsort1 : List.Sorted (fun a b : Nat => a ≤ b)
      ((sortBySerial C).map (fun k => k.serial)) :=
    List.pairwise_map.mpr (sortBySerial_pairwise C)
  have hsort2 : List.Sorted (fun a b : Nat => a ≤ b) (L.map (fun k => k.serial)) :=
    List.pairwise_map.mpr hL
  exact List.eq_of_perm_of_sorted
    (((sortBySerial_perm C).trans hp).map (fun k => k.serial)) hsort1 hsort2

lemma mergeLoop_spec {Ctx : Type} (firstSize : Nat) :
    ∀ (chunks : List (Chunk Ctx)) (buf : List Nat) (offset : Nat) (ctxs : List Ctx),
      (∀ k ∈ chunks, k.data.length ≤ firstSize) →
      offset + chunks.length * firstSize ≤ buf.length →
      ∃ buf1,
        mergeLoop firstSize chunks buf offset ctxs =
          .ok (buf1, offset + (chunks.map (fun k => k.data.length)).sum,
            ctxs ++ chunks.filterMap (fun k => k.context)) ∧
        buf1.length = buf.length ∧
        buf1.take (offset + (chunks.map (fun k => k.data.length)).sum) =
          buf.take offset ++ (chunks.map (fun k => k.data)).flatten := by
  intro chunks
  induction chunks with
  | nil =>
    intro buf offset ctxs hsz hcap
    refine ⟨buf, by simp [mergeLoop], rfl, by simp⟩
  | cons k rest ih =>
    intro buf offset ctxs hsz hcap
    have hk : k.data.length ≤ firstSize := hsz k (List.mem_cons_self k rest)
    have hmul : (k :: rest).length * firstSize = firstSize + rest.length * firstSize := by
      simp [List.length_cons, Nat.succ_mul, Nat.add_comm]
    have hoffk : offset + k.data.length ≤ buf.length := by omega
    have hol : offset ≤ buf.length := by omega
    have hset : typedArraySet buf k.data offset =
        some (buf.take offset ++ k.data ++ buf.drop (offset + k.data.length)) := by
      rw [typedArraySet, if_neg (Nat.not_lt.mpr hoffk)]
    have hlen1 : (buf.take offset ++ k.data ++ buf.drop (offset + k.data.length)).length
        = buf.length := by
      simp [List.length_append, List.length_take, List.length_drop,
        Nat.min_eq_left hol]
      omega
    have htake1 : (buf.take offset ++ k.data ++ buf.drop (offset + k.data.length)).take
        (offset + k.data.length) = buf.take offset ++ k.data := by
      apply List.take_left'
      simp [List.length_append, List.length_take, Nat.min_eq_left hol]
    have hsz2 : ∀ x ∈ rest, x.data.length ≤ firstSize :=
      fun x hx => hsz x (List.mem_cons_of_mem k hx)
    have hcap2 : (offset + k.data.length) + rest.length * firstSize ≤
        (buf.take offset ++ k.data ++ buf.drop (offset + k.data.length)).length := by
      rw [hlen1]
      omega
    obtain ⟨buf2, hrun, hlen2, htake2⟩ := ih
      (buf.take offset ++ k.data ++ buf.drop (offset + k.data.length))
      (offset + k.data.length)
      (ctxs ++ (match k.context with | some x => [x] | none => []))
      hsz2 hcap2
    refine ⟨buf2, ?_, by rw [hlen2, hlen1], ?_⟩
    · have hloop : mergeLoop firstSize (k :: rest) buf offset ctxs =
          mergeLoop firstSize rest
            (buf.take offset ++ k.data ++ buf.drop (offset + k.data.length))
            (offset + k.data.length)
            (ctxs ++ (match k.context with | some x => [x] | none => [])) := by
        rw [mergeLoop, if_neg (Nat.not_lt.mpr hk), hset]
      rw [hloop, hrun]
      cases hctx : k.context <;>
        simp [hctx, List.filterMap_cons, Nat.add_assoc, List.append_assoc]
    · have hsum : offset + ((k :: rest).map (fun x => x.data.length)).sum =
          (offset + k.data.length) + ((rest.map (fun x => x.data.length)).sum) := by
        simp [Nat.add_assoc]
      rw [hsum, htake2, htake1]
      simp [List.append_assoc]

lemma sum_map_le_length_mul {A : Type} (f : A → Nat) (b : Nat) :
    ∀ L : List A, (∀ x ∈ L, f x ≤ b) → (L.map f).sum ≤ L.length * b := by
  intro L
  induction L with
  | nil => simp
  | cons a t ih =>
    intro h
    simp only [List.map_cons, List.sum_cons, List.length_cons, Nat.succ_mul]
    have h1 := h a (List.mem_cons_self a t)
    have h2 := ih (fun x hx => h x (List.mem_cons_of_mem a hx))
    omega

lemma mergeChunks_concat {Ctx : Type} (c : ChunkCollector Ctx) (first : Chunk Ctx)
    (rest : List (Chunk Ctx))
    (hchunks : c.chunks = first :: rest)
    (hlen : ∀ k ∈ c.chunks, k.data.length ≤ first.data.length)
    (hml : c.messageLength = some c.chunks.length) :
    c.mergeChunks = .ok ((c.chunks.map (fun k => k.data)).flatten,
      c.chunks.filterMap (fun k => k.context)) := by
  rcases c with ⟨ea, lu, ml, L⟩
  simp only at hchunks hml hlen
  subst hchunks
  subst hml
  have hcap : 0 + (first :: rest).length * first.data.length ≤
      (List.replicate (first.data.length * (first :: rest).length) 0).length := by
    simp [List.length_replicate, Nat.mul_comm]
  obtain ⟨buf1, hrun, hlen1, htake1⟩ := mergeLoop_spec first.data.length
    (first :: rest) (List.replicate (first.data.length * (first :: rest).length) 0)
    0 [] hlen hcap
  simp only [List.take_zero, List.nil_append, Nat.zero_add] at hrun htake1
  simp only [ChunkCollector.mergeChunks, Option.getD_some]
  rw [hrun]
  simpa using htake1

/-- C2: merging a complete collector whose payloads are all bounded by the
payload of the serial-0 chunk yields the concatenation of the payloads in
ascending serial order, of length exactly the sum of the payload lengths,
together with the contexts of exactly those chunks that carried one, in
ascending serial order.  The list c0 :: rest is the ascending-by-serial
ordering of the stored chunks. -/
theorem c2_merge_concatenates {Ctx : Type} (c : ChunkCollector Ctx) (c0 : Chunk Ctx)
    (rest : List (Chunk Ctx))
    (hperm : c.chunks.Perm (c0 :: rest))
    (hsorted : List.Pairwise (fun a b : Chunk Ctx => a.serial ≤ b.serial) (c0 :: rest))
    (hnodup : ((c0 :: rest).map (fun k => k.serial)).Nodup)
    (h0 : c0.serial = 0)
    (hlen : ∀ k ∈ c.chunks, k.data.length ≤ c0.data.length)
    (hc : c.isComplete = true) :
    c.merge = ({ c with chunks := c0 :: rest },
      .ok (((c0 :: rest).map (fun k => k.data)).flatten,
        (c0 :: rest).filterMap (fun k => k.context))) ∧
    (((c0 :: rest).map (fun k => k.data)).flatten).length =
      ((c0 :: rest).map (fun k => k.data.length)).sum := by
  have hsort : sortBySerial c.chunks = c0 :: rest :=
    sortBySerial_eq_of_sorted _ _ hperm hsorted hnodup
  have hml : c.messageLength = some c.chunks.length := by
    unfold ChunkCollector.isComplete at hc
    rw [Bool.and_eq_true] at hc
    exact (beq_iff_eq.mp hc.2).symm
  have hlen2 : ∀ k ∈ ({ c with chunks := c0 :: rest } : ChunkCollector Ctx).chunks,
      k.data.length ≤ c0.data.length := by
    intro k hk
    exact hlen k (hperm.mem_iff.mpr hk)
  have hml2 : ({ c with chunks := c0 :: rest } : ChunkCollector Ctx).messageLength =
      some ({ c with chunks := c0 :: rest } : ChunkCollector Ctx).chunks.length := by
    simp only [hml]
    rw [hperm.length_eq]
  have hmc := mergeChunks_concat ({ c with chunks := c0 :: rest } : ChunkCollector Ctx)
    c0 rest rfl hlen2 hml2
  constructor
  · unfold ChunkCollector.merge
    rw [hc]
    simp only [Bool.not_true, Bool.false_eq_true, if_false, hsort]
    rw [hmc]
  · rw [List.length_flatten, List.map_map]
    rfl

theorem c2_merge_concatenates_witness :
    demoC2Collector.merge =
      (⟨true, 3, some 3, [⟨false, 7, 0, [1, 2, 3, 4], some 10⟩,
          ⟨false, 7, 1, [5, 6, 7, 8], none⟩, ⟨true, 7, 2, [9, 10], some 30⟩]⟩,
        .ok ([1, 2, 3, 4, 5, 6, 7, 8, 9, 10], [10, 30])) ∧
    ([1, 2, 3, 4, 5, 6, 7, 8, 9, 10] : List Nat).length = (10 : Nat) := by
  have h := c2_merge_concatenates demoC2Collector
    ⟨false, 7, 0, [1, 2, 3, 4], some 10⟩
    [⟨false, 7, 1, [5, 6, 7, 8], none⟩, ⟨true, 7, 2, [9, 10], some 30⟩]
    (by decide) (by decide) (by decide) (by decide) (by decide) (by decide)
  exact h

/-- C1 counterexample: a single-chunk message (N = 1, serial 0, end flag
set) delivered twice.  The duplicate is not suppressed, because the fast
path never creates a collector, so the claimed exactly-once delivery fails:
the listener is invoked twice. -/
theorem c1_counterexample :
    (Unchunker.run 0 ({ registry := [] } : UnchunkerState Nat)
      ([0, 0].map (fun i => (mkChunk 1 7 (fun j => [42]) (fun j => none) i,
        (fun j => (none : Option Nat)) i)))).2 =
      .ok [([42], []), ([42], [])] ∧
    (Unchunker.run 0 ({ registry := [] } : UnchunkerState Nat)
      ([0, 0].map (fun i => (mkChunk 1 7 (fun j => [42]) (fun j => none) i,
        (fun j => (none : Option Nat)) i)))).2 ≠
      .ok [(((List.range 1).map (fun j => [42])).flatten,
        (List.range 1).filterMap (fun j => (none : Option Nat)))] :=
  ⟨rfl, by decide⟩

lemma mkChunk_serial {Ctx : Type} (N I : Nat) (p : Nat → List Nat)
    (ctx : Nat → Option Ctx) (i : Nat) : (mkChunk N I p ctx i).serial = i := rfl

lemma mkChunk_id {Ctx : Type} (N I : Nat) (p : Nat → List Nat)
    (ctx : Nat → Option Ctx) (i : Nat) : (mkChunk N I p ctx i).id = I := rfl

lemma mkChunk_isEnd {Ctx : Type} (N I : Nat) (p : Nat → List Nat)
    (ctx : Nat → Option Ctx) (i : Nat) :
    (mkChunk N I p ctx i).isEndOfMessage = decide (i = N - 1) := rfl

lemma find_serial_map {Ctx : Type} (N I : Nat) (p : Nat → List Nat)
    (ctx : Nat → Option Ctx) :
    ∀ (l : List Nat) (j : Nat),
      ((l.map (mkChunk N I p ctx)).find?
        (fun k => (k : Chunk Ctx).serial == j)).isSome = decide (j ∈ l) := by
  intro l j
  induction l with
  | nil => simp
  | cons a t ih =>
    by_cases h : a = j
    · subst h
      simp [mkChunk, List.find?]
    · have h2 : ¬ (j = a) := fun hh => h hh.symm
      have hne : ((mkChunk N I p ctx a : Chunk Ctx).serial == j) = false := by
        simp [mkChunk, nat_beq_eq_decide, h]
      simp only [List.find?_map] at ih
      simp [List.find?, hne, ih, List.mem_cons, h2]

lemma hasSerial_collOf {Ctx : Type} (N I now : Nat) (p : Nat → List Nat)
    (ctx : Nat → Option Ctx) (l : List Nat) (j : Nat) :
    (collOf N I now p ctx l : ChunkCollector Ctx).hasSerial j = decide (j ∈ l) := by
  unfold ChunkCollector.hasSerial collOf
  exact find_serial_map N I p ctx l j

lemma length_lt_of_nodup_miss (L : List Nat) (N i : Nat) (hnd : L.Nodup)
    (hbound : ∀ x ∈ L, x < N) (hiN : i < N) (hi : i ∉ L) : L.length < N := by
  have hsub : L ⊆ (List.range N).erase i := by
    intro x hx
    have hxi : x ≠ i := fun h => hi (h ▸ hx)
    rw [List.mem_erase_of_ne hxi, List.mem_range]
    exact hbound x hx
  have hle := (List.subperm_of_subset hnd hsub).length_le
  rw [List.length_erase_of_mem (List.mem_range.mpr hiN), List.length_range] at hle
  omega

lemma mkChunk_fastpath_false {Ctx : Type} (N I : Nat) (p : Nat → List Nat)
    (ctx : Nat → Option Ctx) (j : Nat) (hN : 2 ≤ N) :
    ((mkChunk N I p ctx j : Chunk Ctx).isEndOfMessage &&
      ((mkChunk N I p ctx j : Chunk Ctx).serial == 0)) = false := by
  rw [mkChunk_isEnd, mkChunk_serial]
  by_cases h : j = 0
  · subst h
    have hne : ¬ ((0 : Nat) = N - 1) := by omega
    simp [hne]
  · simp [nat_beq_eq_decide, h]

lemma addChunk_collOf {Ctx : Type} (N I now : Nat) (p : Nat → List Nat)
    (ctx : Nat → Option Ctx) (l : List Nat) (j : Nat)
    (hN1 : 1 ≤ N) (hj : j ∉ l) :
    (collOf N I now p ctx l : ChunkCollector Ctx).addChunk now (mkChunk N I p ctx j) =
      collOf N I now p ctx (l ++ [j]) := by
  unfold ChunkCollector.addChunk
  rw [mkChunk_serial, hasSerial_collOf]
  have hjf : ¬ (decide (j ∈ l) = true) := by simp [hj]
  rw [if_neg hjf, mkChunk_isEnd]
  by_cases hend : j = N - 1
  · subst hend
    have hjn : N - 1 + 1 = N := by omega
    simp [collOf, List.map_append, List.mem_append, hjn]
  · have hne : ¬ (N - 1 = j) := fun hh => hend hh.symm
    simp [collOf, List.map_append, List.mem_append, hend, hne]

lemma isComplete_collOf_miss {Ctx : Type} (N I now : Nat) (p : Nat → List Nat)
    (ctx : Nat → Option Ctx) (L : List Nat) (hnd : L.Nodup)
    (hbound : ∀ x ∈ L, x < N) (i : Nat) (hiN : i < N) (hi : i ∉ L) :
    (collOf N I now p ctx L : ChunkCollector Ctx).isComplete = false := by
  unfold ChunkCollector.isComplete collOf
  by_cases hmem : N - 1 ∈ L
  · have hlen : L.length < N := length_lt_of_nodup_miss L N i hnd hbound hiN hi
    have hne : L.length ≠ N := by omega
    simp [hmem, List.length_map, hne]
  · simp [hmem]

lemma step_duplicate {Ctx : Type} (N I now : Nat) (p : Nat → List Nat)
    (ctx : Nat → Option Ctx) (l : List Nat) (j : Nat) (hj : j ∈ l) :
    Unchunker.addParsedChunk now
      ({ registry := [(I, collOf N I now p ctx l)] } : UnchunkerState Ctx)
      (mkChunk N I p ctx j) (ctx j) =
      ({ registry := [(I, collOf N I now p ctx l)] }, .ok none) := by
  simp [Unchunker.addParsedChunk, mapGet, List.find?, mkChunk_id, mkChunk_serial,
    hasSerial_collOf, hj]

lemma step_new_incomplete {Ctx : Type} (N I now : Nat) (p : Nat → List Nat)
    (ctx : Nat → Option Ctx) (l : List Nat) (j i : Nat)
    (hN : 2 ≤ N) (hjN : j < N) (hj : j ∉ l)
    (hnd : l.Nodup) (hbound : ∀ x ∈ l, x < N)
    (hiN : i < N) (hi : i ∉ l ++ [j]) :
    Unchunker.addParsedChunk now
      ({ registry := [(I, collOf N I now p ctx l)] } : UnchunkerState Ctx)
      (mkChunk N I p ctx j) (ctx j) =
      ({ registry := [(I, collOf N I now p ctx (l ++ [j]))] }, .ok none) := by
  have hN1 : 1 ≤ N := by omega
  have hnd2 : (l ++ [j]).Nodup := by
    rw [List.nodup_append]
    exact ⟨hnd, List.nodup_singleton j, fun x hx hx2 => hj ((List.mem_singleton.mp hx2) ▸ hx)⟩
  have hbound2 : ∀ x ∈ l ++ [j], x < N := by
    intro x hx
    rcases List.mem_append.mp hx with hx2 | hx2
    · exact hbound x hx2
    · rw [List.mem_singleton.mp hx2]; exact hjN
  have h1 := addChunk_collOf N I now p ctx l j hN1 hj
  have h2 := isComplete_collOf_miss N I now p ctx (l ++ [j]) hnd2 hbound2 i hiN hi
  have h3 := mkChunk_fastpath_false N I p ctx j hN
  have h4 : (mkChunk N I p ctx j : Chunk Ctx).isEndOfMessage = true → ¬ j = 0 := by
    rw [mkChunk_isEnd]
    intro hd h0
    subst h0
    have h5 := of_decide_eq_true hd
    omega
  simp [Unchunker.addParsedChunk, mapGet, mapSet, List.find?, mkChunk_id, mkChunk_serial,
    hasSerial_collOf, hj, h3, h1, h2]
  exact h4

lemma collOf_nil {Ctx : Type} (N I now : Nat) (p : Nat → List Nat)
    (ctx : Nat → Option Ctx) :
    (collOf N I now p ctx [] : ChunkCollector Ctx) = { lastUpdate := now } := by
  simp [collOf]

lemma step_base {Ctx : Type} (N I now : Nat) (p : Nat → List Nat)
    (ctx : Nat → Option Ctx) (j : Nat) (hN : 2 ≤ N) (hjN : j < N) :
    Unchunker.addParsedChunk now ({ registry := [] } : UnchunkerState Ctx)
      (mkChunk N I p ctx j) (ctx j) =
      ({ registry := [(I, collOf N I now p ctx [j])] }, .ok none) := by
  have hN1 : 1 ≤ N := by omega
  have h1 : (({ lastUpdate := now } : ChunkCollector Ctx)).addChunk now
      (mkChunk N I p ctx j) = collOf N I now p ctx [j] := by
    rw [← collOf_nil N I now p ctx]
    exact addChunk_collOf N I now p ctx [] j hN1 (by simp)
  obtain ⟨i, hiN, hij⟩ : ∃ i, i < N ∧ i ∉ [j] := by
    by_cases h : j = 0
    · refine ⟨1, by omega, ?_⟩
      rw [h]
      simp
    · refine ⟨0, by omega, ?_⟩
      simp
      exact fun hh => h hh.symm
  have h2 := isComplete_collOf_miss N I now p ctx [j] (List.nodup_singleton j)
    (by intro x hx; rw [List.mem_singleton.mp hx]; exact hjN) i hiN hij
  have h3 := mkChunk_fastpath_false N I p ctx j hN
  have h4 : (mkChunk N I p ctx j : Chunk Ctx).isEndOfMessage = true → ¬ j = 0 := by
    rw [mkChunk_isEnd]
    intro hd h0
    subst h0
    have h5 := of_decide_eq_true hd
    omega
  simp [Unchunker.addParsedChunk, mapGet, mapSet, List.find?, mkChunk_id, mkChunk_serial,
    h3, h1, h2]
  exact h4

lemma merge_collOf_full {Ctx : Type} (N I now : Nat) (p : Nat → List Nat)
    (ctx : Nat → Option Ctx) (L : List Nat)
    (hN : 1 ≤ N)
    (hnd : L.Nodup) (hbound : ∀ x ∈ L, x < N)
    (hcov : ∀ x, x < N → x ∈ L)
    (hple : ∀ x, x < N → (p x).length ≤ (p 0).length) :
    (collOf N I now p ctx L : ChunkCollector Ctx).merge =
      ({ collOf N I now p ctx L with chunks := (List.range N).map (mkChunk N I p ctx) },
        .ok (((List.range N).map p).flatten, (List.range N).filterMap ctx)) := by
  have hperm : L.Perm (List.range N) :=
    (List.perm_ext_iff_of_nodup hnd (List.nodup_range N)).mpr
      (fun a => ⟨fun h => List.mem_range.mpr (hbound a h),
        fun h => hcov a (List.mem_range.mp h)⟩)
  have hlenL : L.length = N := by rw [hperm.length_eq, List.length_range]
  have hmemN : N - 1 ∈ L := hcov (N - 1) (by omega)
  have hcomp : (collOf N I now p ctx L : ChunkCollector Ctx).isComplete = true := by
    unfold ChunkCollector.isComplete collOf
    simp [hmemN, List.length_map, hlenL]
  have hserialmap : (((List.range N).map (mkChunk N I p ctx)).map
      (fun k => (k : Chunk Ctx).serial)) = List.range N := by
    rw [List.map_map]
    have hcomp2 : ((fun k => (k : Chunk Ctx).serial) ∘ mkChunk N I p ctx) =
        fun x => x := rfl
    rw [hcomp2]
    exact List.map_id' (List.range N)
  have hsorted : List.Pairwise (fun a b : Chunk Ctx => a.serial ≤ b.serial)
      ((List.range N).map (mkChunk N I p ctx)) := by
    rw [List.pairwise_map]
    exact List.pairwise_le_range N
  have hnodupS : (((List.range N).map (mkChunk N I p ctx)).map
      (fun k => (k : Chunk Ctx).serial)).Nodup := by
    rw [hserialmap]
    exact List.nodup_range N
  have hsorteq : sortBySerial (L.map (mkChunk N I p ctx)) =
      (List.range N).map (mkChunk N I p ctx) :=
    sortBySerial_eq_of_sorted _ _ (hperm.map _) hsorted hnodupS
  have hra : List.range N = List.range (N - 1 + 1) :=
    congrArg List.range (by omega)
  have hr0 : List.range N = 0 :: (List.range (N - 1)).map Nat.succ := by
    rw [hra, List.range_succ_eq_map]
  have hrange : (List.range N).map (mkChunk N I p ctx) =
      (mkChunk N I p ctx 0) ::
        ((List.range (N - 1)).map Nat.succ).map (mkChunk N I p ctx) := by
    rw [hr0]
    rfl
  have hmlC : ({ collOf N I now p ctx L with
      chunks := (List.range N).map (mkChunk N I p ctx) } : ChunkCollector Ctx).messageLength =
      some ({ collOf N I now p ctx L with
        chunks := (List.range N).map (mkChunk N I p ctx) } : ChunkCollector Ctx).chunks.length := by
    simp [collOf, hmemN, List.length_map, List.length_range]
  have hlenC : ∀ k ∈ ({ collOf N I now p ctx L with
      chunks := (List.range N).map (mkChunk N I p ctx) } : ChunkCollector Ctx).chunks,
      k.data.length ≤ (mkChunk N I p ctx 0 : Chunk Ctx).data.length := by
    intro k hk
    simp only at hk
    rcases List.mem_map.mp hk with ⟨x, hx, rfl⟩
    exact hple x (List.mem_range.mp hx)
  have hmc := mergeChunks_concat
    ({ collOf N I now p ctx L with
      chunks := (List.range N).map (mkChunk N I p ctx) } : ChunkCollector Ctx)
    (mkChunk N I p ctx 0) (((List.range (N - 1)).map Nat.succ).map (mkChunk N I p ctx))
    hrange hlenC hmlC
  have hdata : (((List.range N).map (mkChunk N I p ctx)).map
      (fun k => (k : Chunk Ctx).data)) = (List.range N).map p := by
    rw [List.map_map]
    rfl
  have hctxl : ((List.range N).map (mkChunk N I p ctx)).filterMap
      (fun k => (k : Chunk Ctx).context) = (List.range N).filterMap ctx := by
    rw [List.filterMap_map]
    rfl
  have hchunksc : (collOf N I now p ctx L : ChunkCollector Ctx).chunks =
      L.map (mkChunk N I p ctx) := rfl
  unfold ChunkCollector.merge
  rw [hcomp]
  simp only [Bool.not_true, Bool.false_eq_true, if_false]
  rw [hchunksc, hsorteq]
  rw [hmc, hdata, hctxl]

lemma step_final {Ctx : Type} (N I now : Nat) (p : Nat → List Nat)
    (ctx : Nat → Option Ctx) (l : List Nat) (j : Nat)
    (hN : 2 ≤ N) (hjN : j < N) (hj : j ∉ l)
    (hnd : l.Nodup) (hbound : ∀ x ∈ l, x < N)
    (hcov : ∀ x, x < N → x ∈ l ++ [j])
    (hple : ∀ x, x < N → (p x).length ≤ (p 0).length) :
    Unchunker.addParsedChunk now
      ({ registry := [(I, collOf N I now p ctx l)] } : UnchunkerState Ctx)
      (mkChunk N I p ctx j) (ctx j) =
      ({ registry := [] },
        .ok (some (((List.range N).map p).flatten,
          (List.range N).filterMap ctx))) := by
  have hN1 : 1 ≤ N := by omega
  have hnd2 : (l ++ [j]).Nodup := by
    rw [List.nodup_append]
    exact ⟨hnd, List.nodup_singleton j, fun x hx hx2 => hj ((List.mem_singleton.mp hx2) ▸ hx)⟩
  have hbound2 : ∀ x ∈ l ++ [j], x < N := by
    intro x hx
    rcases List.mem_append.mp hx with hx2 | hx2
    · exact hbound x hx2
    · rw [List.mem_singleton.mp hx2]; exact hjN
  have hperm : (l ++ [j]).Perm (List.range N) :=
    (List.perm_ext_iff_of_nodup hnd2 (List.nodup_range N)).mpr
      (fun a => ⟨fun h => List.mem_range.mpr (hbound2 a h),
        fun h => hcov a (List.mem_range.mp h)⟩)
  have hlenL : (l ++ [j]).length = N := by rw [hperm.length_eq, List.length_range]
  have hmemN : N - 1 ∈ l ++ [j] := hcov (N - 1) (by omega)
  have hlenL2 : l.length + 1 = N := by simpa using hlenL
  have h1 := addChunk_collOf N I now p ctx l j hN1 hj
  have hcomp : (collOf N I now p ctx (l ++ [j]) : ChunkCollector Ctx).isComplete = true := by
    unfold ChunkCollector.isComplete collOf
    simp [hmemN, List.length_map, hlenL2]
  have hmerge := merge_collOf_full N I now p ctx (l ++ [j]) hN1 hnd2 hbound2 hcov hple
  have h3 := mkChunk_fastpath_false N I p ctx j hN
  have h4 : (mkChunk N I p ctx j : Chunk Ctx).isEndOfMessage = true → ¬ j = 0 := by
    rw [mkChunk_isEnd]
    intro hd h0
    subst h0
    have h5 := of_decide_eq_true hd
    omega
  simp [Unchunker.addParsedChunk, mapGet, mapSet, mapDelete, List.find?, mkChunk_id,
    mkChunk_serial, hasSerial_collOf, hj, h3, h1, hcomp, hmerge]
  exact fun hd h0 => absurd h0 (h4 hd)

lemma run_append {Ctx : Type} (now : Nat) :
    ∀ (xs ys : List (Chunk Ctx × Option Ctx)) (s : UnchunkerState Ctx),
      Unchunker.run now s (xs ++ ys) =
        match Unchunker.run now s xs with
        | (s1, .error e) => (s1, .error e)
        | (s1, .ok ds) =>
          match Unchunker.run now s1 ys with
          | (s2, .error e) => (s2, .error e)
          | (s2, .ok ds2) => (s2, .ok (ds ++ ds2)) := by
  intro xs
  induction xs with
  | nil =>
    intro ys s
    rcases hr : Unchunker.run now s ys with ⟨s2, r⟩
    cases r <;> simp [Unchunker.run, hr]
  | cons x xs ih =>
    intro ys s
    obtain ⟨xc, xctx⟩ := x
    rcases hx : Unchunker.addParsedChunk now s xc xctx with ⟨s1, r1⟩
    cases r1 with
    | error e =>
      simp [Unchunker.run, hx]
    | ok d =>
      rcases hr1 : Unchunker.run now s1 xs with ⟨s2, r2⟩
      cases r2 with
      | error e =>
        simp [Unchunker.run, hx, ih ys s1, hr1]
      | ok ds =>
        rcases hr2 : Unchunker.run now s2 ys with ⟨s3, r3⟩
        cases r3 with
        | error e =>
          simp [Unchunker.run, hx, ih ys s1, hr1, hr2]
        | ok ds2 =>
          simp [Unchunker.run, hx, ih ys s1, hr1, hr2]

lemma c1_single_run {Ctx : Type} (I now : Nat) (p : Nat → List Nat)
    (ctx : Nat → Option Ctx) :
    Unchunker.run now ({ registry := [] } : UnchunkerState Ctx)
      [(mkChunk 1 I p ctx 0, ctx 0)] =
      ({ registry := [] },
        .ok [(((List.range 1).map p).flatten, (List.range 1).filterMap ctx)]) := by
  have hrange1 : List.range 1 = [0] := by simp [List.range_succ]
  cases hc : ctx 0 <;>
    simp [Unchunker.run, Unchunker.addParsedChunk, mapGet, mapDelete, mkChunk,
      hrange1, hc, List.filterMap_cons]

lemma run_prefix {Ctx : Type} (N I now : Nat) (p : Nat → List Nat)
    (ctx : Nat → Option Ctx) (hN : 2 ≤ N) :
    ∀ (q : List Nat), q ≠ [] → (∀ x ∈ q, x < N) →
      (∃ i, i < N ∧ i ∉ q) →
      ∃ l : List Nat, l.Nodup ∧ (∀ x, x ∈ l ↔ x ∈ q) ∧ (∀ x ∈ l, x < N) ∧
        Unchunker.run now ({ registry := [] } : UnchunkerState Ctx)
          (q.map (fun i => (mkChunk N I p ctx i, ctx i))) =
          ({ registry := [(I, collOf N I now p ctx l)] }, .ok []) := by
  intro q
  induction q using List.reverseRecOn with
  | nil => intro h; exact absurd rfl h
  | append_singleton q j ih =>
    intro hne hbound hmiss
    by_cases hq : q = []
    · subst hq
      have hjN : j < N := hbound j (by simp)
      refine ⟨[j], List.nodup_singleton j, by simp, by simpa using hjN, ?_⟩
      have hb := step_base N I now p ctx j hN hjN
      simp [Unchunker.run, hb]
    · obtain ⟨i, hiN, hi⟩ := hmiss
      have hmiss2 : ∃ i2, i2 < N ∧ i2 ∉ q :=
        ⟨i, hiN, fun h => hi (List.mem_append.mpr (Or.inl h))⟩
      have hbound2 : ∀ x ∈ q, x < N :=
        fun x hx => hbound x (List.mem_append.mpr (Or.inl hx))
      obtain ⟨l, hnd, hmem, hlb, hrun⟩ := ih hq hbound2 hmiss2
      have hjN : j < N := hbound j (by simp)
      rw [List.map_append, run_append, hrun]
      by_cases hjq : j ∈ q
      · have hjl : j ∈ l := (hmem j).mpr hjq
        have hstep := step_duplicate N I now p ctx l j hjl
        refine ⟨l, hnd, ?_, hlb, ?_⟩
        · intro x
          rw [hmem x]
          constructor
          · exact fun h => List.mem_append.mpr (Or.inl h)
          · intro h
            rcases List.mem_append.mp h with h2 | h2
            · exact h2
            · rw [List.mem_singleton.mp h2]; exact hjq
        · simp [Unchunker.run, hstep]
      · have hjl : j ∉ l := fun h => hjq ((hmem j).mp h)
        have hi2 : i ∉ l ++ [j] := by
          intro h
          rcases List.mem_append.mp h with h2 | h2
          · exact hi (List.mem_append.mpr (Or.inl ((hmem i).mp h2)))
          · exact hi (List.mem_append.mpr (Or.inr h2))
        have hstep := step_new_incomplete N I now p ctx l j i hN hjN hjl hnd hlb hiN hi2
        refine ⟨l ++ [j], ?_, ?_, ?_, ?_⟩
        · rw [List.nodup_append]
          exact ⟨hnd, List.nodup_singleton j,
            fun x hx hx2 => hjl ((List.mem_singleton.mp hx2) ▸ hx)⟩
        · intro x
          simp [List.mem_append, hmem x]
        · intro x hx
          rcases List.mem_append.mp hx with h2 | h2
          · exact hlb x h2
          · rw [List.mem_singleton.mp h2]; exact hjN
        · simp [Unchunker.run, hstep]

/-- C1 (amended): for N chunks of one message id (serials 0..N-1, end flag
only on serial N-1, payloads of equal size except a possibly shorter last),
delivered in any order with duplicate serials interspersed any number of
times BEFORE the message completes (the add that first covers all N serials
is the last call of the sequence), the listener is invoked exactly once,
with message equal to the concatenation of the payloads in serial order.
Without the restriction the claim fails: chunks delivered after completion
re-deliver, because delivery erases all dedup state for the id. -/
theorem c1_reassembly_exactly_once {Ctx : Type} (N I now : Nat)
    (p : Nat → List Nat) (ctx : Nat → Option Ctx) (order : List Nat)
    (hN : 1 ≤ N)
    (horder : ∀ x ∈ order, x < N)
    (hcover : ∀ i, i < N → i ∈ order)
    (hmiss : ∃ i, i < N ∧ i ∉ order.dropLast)
    (hlen1 : ∀ i, i + 1 < N → (p i).length = (p 0).length)
    (hlen2 : (p (N - 1)).length ≤ (p 0).length) :
    (Unchunker.run now ({ registry := [] } : UnchunkerState Ctx)
      (order.map (fun i => (mkChunk N I p ctx i, ctx i)))).2 =
      .ok [(((List.range N).map p).flatten, (List.range N).filterMap ctx)] := by
  have hple : ∀ x, x < N → (p x).length ≤ (p 0).length := by
    intro x hx
    by_cases h : x + 1 < N
    · rw [hlen1 x h]
    · have hx2 : x = N - 1 := by omega
      rw [hx2]
      exact hlen2
  have hne : order ≠ [] := by
    intro h
    have h0 := hcover 0 (by omega)
    rw [h] at h0
    simp at h0
  obtain ⟨i0, hi0N, hi0⟩ := hmiss
  have horderEq : order = order.dropLast ++ [order.getLast hne] :=
    (List.dropLast_append_getLast hne).symm
  have hlast : order.getLast hne = i0 := by
    have hmem : i0 ∈ order := hcover i0 hi0N
    rw [horderEq] at hmem
    rcases List.mem_append.mp hmem with h2 | h2
    · exact absurd h2 hi0
    · exact (List.mem_singleton.mp h2).symm
  by_cases hN2 : 2 ≤ N
  · by_cases hq : order.dropLast = []
    · exfalso
      have h0 : (0 : Nat) ∈ order := hcover 0 (by omega)
      have h1 : (1 : Nat) ∈ order := hcover 1 (by omega)
      rw [horderEq, hq, hlast] at h0 h1
      simp at h0 h1
      omega
    · obtain ⟨l, hnd, hmem, hlb, hrun⟩ := run_prefix N I now p ctx hN2 order.dropLast hq
        (fun x hx => horder x ((List.dropLast_sublist order).subset hx))
        ⟨i0, hi0N, hi0⟩
      have hi0l : i0 ∉ l := fun h => hi0 ((hmem i0).mp h)
      have hcov2 : ∀ x, x < N → x ∈ l ++ [i0] := by
        intro x hx
        have hxo := hcover x hx
        rw [horderEq, hlast] at hxo
        rcases List.mem_append.mp hxo with h2 | h2
        · exact List.mem_append.mpr (Or.inl ((hmem x).mpr h2))
        · exact List.mem_append.mpr (Or.inr h2)
      have hstep := step_final N I now p ctx l i0 hN2 hi0N hi0l hnd hlb hcov2 hple
      conv_lhs => rw [horderEq, hlast]
      rw [List.map_append, run_append, hrun]
      simp [Unchunker.run, hstep]
  · have hN1 : N = 1 := by omega
    subst hN1
    have hq : order.dropLast = [] := by
      rw [List.eq_nil_iff_forall_not_mem]
      intro a ha
      have haN : a < 1 := horder a ((List.dropLast_sublist order).subset ha)
      have hi00 : i0 = 0 := by omega
      have ha0 : a = 0 := by omega
      rw [ha0] at ha
      rw [hi00] at hi0
      exact hi0 ha
    have hlast0 : order.getLast hne = 0 := by
      rw [hlast]
      omega
    conv_lhs => rw [horderEq, hq, hlast0]
    simp only [List.nil_append, List.map_cons, List.map_nil]
    rw [c1_single_run I now p ctx]

theorem c1_reassembly_exactly_once_witness :
    (Unchunker.run 0 ({ registry := [] } : UnchunkerState Nat)
      ([1, 0].map (fun i => (mkChunk 2 7 (fun j => [10 * (j + 1)]) (fun j => none) i,
        (fun j => (none : Option Nat)) i)))).2 =
      .ok [([10, 20], [])] := by
  have h := c1_reassembly_exactly_once 2 7 0 (fun j => [10 * (j + 1)])
    (fun j => (none : Option Nat)) [1, 0]
    (by omega) (by decide) (by decide) ⟨0, by decide⟩
    (fun i hi => rfl) (by decide)
  exact h
